import Mathlib

/-!
Verification of the price-alert subsystem of a Telegram finance bot
(`telegram_bot.py`): the tracked-stocks store, its persistence
(`load_tracked_stocks` / `save_tracked_stocks`), the command-facing
mutations (`track` / `untrack`) and the periodic alert sweep
(`check_price_alerts`).
-/

/-- An alert condition, as stored per (chat, symbol):
`{'target_price': float, 'direction': 'above'/'below'}`.
Prices are modelled as rationals; `direction` is a raw string, as in the
code (no validation on load). -/
structure Alert where
  target_price : ℚ
  direction : String
deriving Repr, DecidableEq

/-- The inner mapping `symbol -> alert data` of one chat.  Python dicts are
modelled as association lists in insertion order with unique keys. -/
abbrev SymbolMap := List (String × Alert)

/-- The global `tracked_stocks` mapping `chat_id -> symbol -> alert data`. -/
abbrev Store := List (String × SymbolMap)

/-- Python `d[k]` / `k in d`: first binding of `k`, if any. -/
def dictGet {α : Type} : List (String × α) → String → Option α
  | [], _ => none
  | (k, v) :: rest, key => if k = key then some v else dictGet rest key

/-- Python `d[k] = v`: replace in place if the key exists, else append. -/
def dictSet {α : Type} : List (String × α) → String → α → List (String × α)
  | [], key, val => [(key, val)]
  | (k, v) :: rest, key, val =>
      if k = key then (k, val) :: rest else (k, v) :: dictSet rest key val

/-- Python `del d[k]`: drop the binding of `k` (the first, which is the only
one for a genuine dict). -/
def dictDel {α : Type} : List (String × α) → String → List (String × α)
  | [], _ => []
  | (k, v) :: rest, key => if k = key then rest else (k, v) :: dictDel rest key

/-- Python `str.upper()` (resp. `str.lower()` below), restricted to ASCII as
symbols and directions are; `String.toUpper`, which it matches on ASCII, is
avoided only because its `mapAux` does not reduce in the kernel. -/
def pyUpper (s : String) : String := ⟨s.data.map Char.toUpper⟩

/-- Python `str.lower()`. -/
def pyLower (s : String) : String := ⟨s.data.map Char.toLower⟩

/-- Keys of a dict, in order. -/
def dictKeys {α : Type} (l : List (String × α)) : List String := l.map Prod.fst

/-- What is always true of a real Python dict: its keys are pairwise
distinct.  Association lists satisfying this model dicts faithfully. -/
def keysNodup {α : Type} (l : List (String × α)) : Prop := (l.map Prod.fst).Nodup

instance {α : Type} (l : List (String × α)) : Decidable (keysNodup l) := by
  unfold keysNodup; infer_instance

/-- Well-formed store: both dict levels have distinct keys. -/
def StoreWF (s : Store) : Prop := keysNodup s ∧ ∀ p ∈ s, keysNodup p.2

instance (s : Store) : Decidable (StoreWF s) := by
  unfold StoreWF; infer_instance

/-- No chat entry maps to an empty inner dict. -/
def NoEmptyOwner (s : Store) : Prop := ∀ p ∈ s, p.2 ≠ []

instance (s : Store) : Decidable (NoEmptyOwner s) := by
  unfold NoEmptyOwner; infer_instance

/-- The alert stored for a (chat, symbol) pair, if any:
`tracked_stocks[chat_id][symbol]`. -/
def getAlert (store : Store) (chat_id symbol : String) : Option Alert :=
  match dictGet store chat_id with
  | some m => dictGet m symbol
  | none => none

/-- `/track <symbol> <price> <above/below>` after argument splitting and
float parsing: rejects a non-positive price, lowercases and validates the
direction, uppercases the symbol, then upserts
`tracked_stocks[chat_id][symbol]` (creating the chat entry when absent).
`none` is the validation-rejected reply path, which leaves the store
untouched. -/
def track (store : Store) (chat_id symbolArg : String) (target_price : ℚ)
    (directionArg : String) : Option Store :=
  if target_price ≤ 0 then none
  else if pyLower directionArg ≠ "above" ∧ pyLower directionArg ≠ "below" then
    none
  else
    some (dictSet store chat_id
      (dictSet ((dictGet store chat_id).getD []) (pyUpper symbolArg)
        ⟨target_price, pyLower directionArg⟩))

/-- The removal body shared by `untrack` and the sweep's removal loop:
`del tracked_stocks[chat_id][symbol]`, then, if the chat's inner dict became
empty, `del tracked_stocks[chat_id]`.  `m` is the chat's inner dict. -/
def delAndPrune (store : Store) (chat_id : String) (m : SymbolMap)
    (symbol : String) : Store :=
  if dictDel m symbol = [] then dictDel store chat_id
  else dictSet store chat_id (dictDel m symbol)

inductive UntrackResult
  | removed (store : Store)
  | notFound
deriving Repr, DecidableEq

/-- `/untrack <symbol>`: when `chat_id in tracked_stocks and symbol in
tracked_stocks[chat_id]`, delete the alert, prune an emptied chat entry and
save; otherwise reply that nothing was tracked. -/
def untrack (store : Store) (chat_id symbolArg : String) : UntrackResult :=
  let symbol := pyUpper symbolArg
  match dictGet store chat_id with
  | some m =>
      if (dictGet m symbol).isSome then
        .removed (delAndPrune store chat_id m symbol)
      else .notFound
  | none => .notFound

/-- All (chat, symbol, alert) triples in the order the sweep's two nested
`for` loops visit them (`list(tracked_stocks.items())`, then
`list(symbols_data.items())`). -/
def storePairs : Store → List (String × String × Alert)
  | [] => []
  | (chat, m) :: rest => m.map (fun sa => (chat, sa.1, sa.2)) ++ storePairs rest

/-- The trigger test of `check_price_alerts`:
`if direction == 'above' and current_price >= target_price: ...
elif direction == 'below' and current_price <= target_price: ...`. -/
def alertFires (direction : String) (current_price target_price : ℚ) : Bool :=
  if direction = "above" ∧ current_price ≥ target_price then true
  else if direction = "below" ∧ current_price ≤ target_price then true
  else false

/-- Observable events of one sweep's evaluation phase.
`fetches`: symbols for which a quote request went out, in order and with
multiplicity (the code builds the request per (chat, symbol) pair);
`notified`: pairs whose `send_message` returned; `notifyFailed`: pairs whose
triggered notification raised (caught by the per-pair `except` and logged);
`toRemove`: the accumulated `alerts_to_remove` list. -/
structure SweepLog where
  fetches : List String
  notified : List (String × String)
  notifyFailed : List (String × String)
  toRemove : List (String × String)
deriving Repr, DecidableEq

/-- Evaluation phase of `check_price_alerts` over the visited pairs.
`hasKey`: whether `ALPHA_VANTAGE_API_KEY` is set (without it no request is
made and `current_price` stays `None`, so every pair is skipped).
`quote symbol = none` covers every non-price outcome of the request —
request exception, JSON decode error, missing `'05. price'`, rate-limit
`'Information'` payload — each of which hits a `continue`.
`notifyOk chat symbol`: whether `context.bot.send_message` returns rather
than raises for that pair's alert message. -/
def sweepEval (hasKey : Bool) (quote : String → Option ℚ)
    (notifyOk : String → String → Bool) :
    List (String × String × Alert) → SweepLog
  | [] => ⟨[], [], [], []⟩
  | (chat, symbol, a) :: rest =>
    let log := sweepEval hasKey quote notifyOk rest
    if hasKey then
      match quote symbol with
      | none => { log with fetches := symbol :: log.fetches }
      | some current_price =>
        if alertFires a.direction current_price a.target_price then
          if notifyOk chat symbol then
            ⟨symbol :: log.fetches, (chat, symbol) :: log.notified,
              log.notifyFailed, (chat, symbol) :: log.toRemove⟩
          else
            ⟨symbol :: log.fetches, log.notified,
              (chat, symbol) :: log.notifyFailed, log.toRemove⟩
        else { log with fetches := symbol :: log.fetches }
    else log

/-- Removal phase of `check_price_alerts`: for each marked pair still present
in the live store, delete it, prune an emptied chat entry and call
`save_tracked_stocks` — the save sits inside the loop, so the second
component counts one save per pair actually removed. -/
def applyRemovals : Store → List (String × String) → Store × Nat
  | store, [] => (store, 0)
  | store, (chat, symbol) :: rest =>
    match dictGet store chat with
    | some m =>
      if (dictGet m symbol).isSome then
        let r := applyRemovals (delAndPrune store chat m symbol) rest
        (r.1, r.2 + 1)
      else applyRemovals store rest
    | none => applyRemovals store rest

/-- One full sweep (`check_price_alerts`): evaluate every (chat, symbol)
pair, then apply the pending removals to the live store.  Returns the final
store, the event log and the number of `save_tracked_stocks` calls. -/
def check_price_alerts (hasKey : Bool) (quote : String → Option ℚ)
    (notifyOk : String → String → Bool) (store : Store) :
    Store × SweepLog × Nat :=
  let log := sweepEval hasKey quote notifyOk (storePairs store)
  let r := applyRemovals store log.toRemove
  (r.1, log, r.2)

/-- JSON values as `json.dump` / `json.load` exchange them. -/
inductive Json
  | num (q : ℚ)
  | str (s : String)
  | boolean (b : Bool)
  | null
  | arr (elems : List Json)
  | obj (members : List (String × Json))

/-- The JSON object written for one alert:
`{'target_price': float, 'direction': str}`. -/
def alertToJson (a : Alert) : Json :=
  .obj [("target_price", .num a.target_price), ("direction", .str a.direction)]

/-- The JSON object for one chat's inner dict. -/
def symbolMapToJson (m : SymbolMap) : Json :=
  .obj (m.map (fun sa => (sa.1, alertToJson sa.2)))

/-- The JSON value `json.dump` writes for the whole store. -/
def storeToJson (s : Store) : Json :=
  .obj (s.map (fun p => (p.1, symbolMapToJson p.2)))

/-- Reading one alert back out of a loaded JSON value. -/
def alertFromJson : Json → Option Alert
  | .obj [("target_price", .num q), ("direction", .str d)] => some ⟨q, d⟩
  | _ => none

/-- Reading a chat's inner dict back from the members of its JSON object. -/
def symbolEntriesFromJson : List (String × Json) → Option SymbolMap
  | [] => some []
  | (k, j) :: rest =>
    match alertFromJson j, symbolEntriesFromJson rest with
    | some a, some m => some ((k, a) :: m)
    | _, _ => none

/-- Reading a chat's inner dict back from its loaded JSON value. -/
def symbolMapFromJson : Json → Option SymbolMap
  | .obj members => symbolEntriesFromJson members
  | _ => none

/-- Reading the store back from the members of the top-level JSON object. -/
def storeEntriesFromJson : List (String × Json) → Option Store
  | [] => some []
  | (k, j) :: rest =>
    match symbolMapFromJson j, storeEntriesFromJson rest with
    | some m, some s => some ((k, m) :: s)
    | _, _ => none

/-- The store a loaded JSON value denotes, when it is store-shaped. -/
def storeFromJson : Json → Option Store
  | .obj members => storeEntriesFromJson members
  | _ => none

/-- `", "`-separated concatenation, as JSON members are joined. -/
def commaSep : List String → String
  | [] => ""
  | [x] => x
  | x :: y :: rest => x ++ ", " ++ commaSep (y :: rest)

/-- Decimal text of the numbers written to the file.  Alert prices arrive
through Python `float(...)`; integral values print as their integer part and
the (never-hit in practice) non-integral case is rendered as a fraction —
the exact float formatting is immaterial to the properties proved below. -/
def printRat (q : ℚ) : String :=
  if q.den = 1 then toString q.num
  else toString q.num ++ "/" ++ toString q.den

/-- Serialized text of one alert object. -/
def printAlertJson (a : Alert) : String :=
  "\x7b\"target_price\": " ++ printRat a.target_price
    ++ ", \"direction\": \"" ++ a.direction ++ "\"\x7d"

/-- Serialized text of one chat's inner dict. -/
def printSymbolMap (m : SymbolMap) : String :=
  "\x7b" ++ commaSep (m.map (fun sa => "\"" ++ sa.1 ++ "\": " ++ printAlertJson sa.2))
    ++ "\x7d"

/-- The text `json.dump(data, f, indent=4)` writes for the store, with the
indentation whitespace elided (it plays no role in the properties below;
keys written by this program — chat ids and upper-cased symbols — need no
escaping). -/
def serializeStore (s : Store) : String :=
  "\x7b" ++ commaSep (s.map (fun p => "\"" ++ p.1 ++ "\": " ++ printSymbolMap p.2))
    ++ "\x7d"

/-- `save_tracked_stocks(data)` with an explicit failure model: the file is
opened with mode `'w'` (truncating) and written in place; `failAfter = some k`
means an `IOError` strikes once `k` characters have reached the file.  The
exception is caught and logged (second component), never re-raised — the
function returns to its caller in every case.  First component: the file's
content afterwards. -/
def save_tracked_stocks (data : Store) (failAfter : Option Nat) : String × Bool :=
  match failAfter with
  | none => (serializeStore data, false)
  | some k => ((serializeStore data).take k, true)

/-- Exceptions `load_tracked_stocks` can hit that its
`except json.JSONDecodeError` clause does not catch — both are siblings of
`JSONDecodeError`, not subclasses, so they propagate to the module-level
call `tracked_stocks = load_tracked_stocks()` (line 80) and end startup. -/
inductive PyError
  | osError
  | unicodeDecodeError
deriving Repr, DecidableEq

/-- The persisted `tracked_stocks.json` as `load_tracked_stocks` can find
it: absent (`os.path.exists` false); present but `open` raises `OSError`
(permissions, a directory, ...); present and opened but the bytes are not
valid UTF-8, so reading inside `json.load` raises `UnicodeDecodeError`;
decoded to text that `json.load` rejects (`json.JSONDecodeError`); or
decoded and parsed — for files this program writes, a store-shaped value. -/
inductive FileState
  | missing
  | openFails
  | invalidUtf8
  | malformed (raw : String)
  | stored (s : Store)
deriving Repr, DecidableEq

/-- `load_tracked_stocks()`: no file → empty dict, no error;
`json.JSONDecodeError` → logged (`true` component) and empty dict;
otherwise the parsed content.  Only `JSONDecodeError` sits in the `except`
clause: an `OSError` from `open` or a `UnicodeDecodeError` from reading
non-UTF-8 bytes propagates out of the function (`Except.error`), reaching
the module-level caller at line 80. -/
def load_tracked_stocks : FileState → Except PyError (Store × Bool)
  | .missing => .ok ([], false)
  | .openFails => .error .osError
  | .invalidUtf8 => .error .unicodeDecodeError
  | .malformed _ => .ok ([], true)
  | .stored s => .ok (s, false)

/-! ## Dictionary lemmas -/

theorem dictGet_eq_none_of_not_mem_keys {α : Type} {l : List (String × α)}
    {k : String} (h : k ∉ l.map Prod.fst) : dictGet l k = none := by
  induction l with
  | nil => rfl
  | cons p rest ih =>
    obtain ⟨k₁, v₁⟩ := p
    simp only [List.map_cons, List.mem_cons, not_or] at h
    simp [dictGet, Ne.symm h.1, ih h.2]

theorem mem_of_dictGet {α : Type} {l : List (String × α)} {k : String} {v : α}
    (h : dictGet l k = some v) : (k, v) ∈ l := by
  induction l with
  | nil => simp [dictGet] at h
  | cons p rest ih =>
    obtain ⟨k₁, v₁⟩ := p
    by_cases h₁ : k₁ = k
    · subst h₁
      simp [dictGet] at h
      simp [h]
    · simp [dictGet, h₁] at h
      exact List.mem_cons_of_mem _ (ih h)

theorem dictGet_eq_some_of_mem {α : Type} {l : List (String × α)} {k : String}
    {v : α} (hnd : keysNodup l) (h : (k, v) ∈ l) : dictGet l k = some v := by
  induction l with
  | nil => simp at h
  | cons p rest ih =>
    obtain ⟨k₁, v₁⟩ := p
    rw [keysNodup, List.map_cons, List.nodup_cons] at hnd
    rcases List.mem_cons.mp h with h | h
    · rw [Prod.mk.injEq] at h
      simp [dictGet, h.1, h.2]
    · have hne : k₁ ≠ k := by
        rintro rfl
        exact hnd.1 (by simpa using List.mem_map_of_mem Prod.fst h)
      simp [dictGet, hne, ih hnd.2 h]

theorem dictGet_dictSet_self {α : Type} (l : List (String × α)) (k : String)
    (v : α) : dictGet (dictSet l k v) k = some v := by
  induction l with
  | nil => simp [dictSet, dictGet]
  | cons p rest ih =>
    obtain ⟨k₁, v₁⟩ := p
    by_cases h₁ : k₁ = k
    · subst h₁; simp [dictSet, dictGet]
    · simp [dictSet, dictGet, h₁, ih]

theorem dictGet_dictSet_ne {α : Type} (l : List (String × α)) {k k' : String}
    (v : α) (h : k ≠ k') : dictGet (dictSet l k v) k' = dictGet l k' := by
  induction l with
  | nil => simp [dictSet, dictGet, h]
  | cons p rest ih =>
    obtain ⟨k₁, v₁⟩ := p
    by_cases h₁ : k₁ = k
    · subst h₁; simp [dictSet, dictGet, h]
    · simp [dictSet, dictGet, h₁, ih]

theorem dictGet_dictDel_ne {α : Type} (l : List (String × α)) {k k' : String}
    (h : k ≠ k') : dictGet (dictDel l k) k' = dictGet l k' := by
  induction l with
  | nil => rfl
  | cons p rest ih =>
    obtain ⟨k₁, v₁⟩ := p
    by_cases h₁ : k₁ = k
    · subst h₁; simp [dictDel, dictGet, h]
    · simp [dictDel, dictGet, h₁, ih]

theorem dictGet_dictDel_self {α : Type} (l : List (String × α)) (k : String)
    (h : keysNodup l) : dictGet (dictDel l k) k = none := by
  induction l with
  | nil => rfl
  | cons p rest ih =>
    obtain ⟨k₁, v₁⟩ := p
    rw [keysNodup, List.map_cons, List.nodup_cons] at h
    by_cases h₁ : k₁ = k
    · subst h₁
      simp only [dictDel, if_pos rfl]
      exact dictGet_eq_none_of_not_mem_keys h.1
    · simp [dictDel, dictGet, h₁, ih h.2]

theorem mem_keys_dictSet {α : Type} (l : List (String × α)) (k : String)
    (v : α) (a : String) :
    a ∈ (dictSet l k v).map Prod.fst ↔ a ∈ l.map Prod.fst ∨ a = k := by
  induction l with
  | nil => simp [dictSet]
  | cons p rest ih =>
    obtain ⟨k₁, v₁⟩ := p
    by_cases h₁ : k₁ = k
    · subst h₁; simp [dictSet]; tauto
    · simp [dictSet, h₁, ih]; tauto

theorem keysNodup_dictSet {α : Type} {l : List (String × α)} (k : String)
    (v : α) (h : keysNodup l) : keysNodup (dictSet l k v) := by
  induction l with
  | nil => simp [dictSet, keysNodup]
  | cons p rest ih =>
    obtain ⟨k₁, v₁⟩ := p
    rw [keysNodup, List.map_cons, List.nodup_cons] at h
    by_cases h₁ : k₁ = k
    · subst h₁
      rw [keysNodup, dictSet, if_pos rfl, List.map_cons, List.nodup_cons]
      exact h
    · rw [keysNodup, dictSet, if_neg h₁, List.map_cons, List.nodup_cons]
      refine ⟨?_, ih h.2⟩
      rw [mem_keys_dictSet]
      rintro (hm | rfl)
      · exact h.1 hm
      · exact h₁ rfl

theorem dictDel_sublist {α : Type} (l : List (String × α)) (k : String) :
    (dictDel l k).Sublist l := by
  induction l with
  | nil => simp [dictDel]
  | cons p rest ih =>
    obtain ⟨k₁, v₁⟩ := p
    by_cases h₁ : k₁ = k
    · simp [dictDel, h₁]
    · simpa [dictDel, h₁] using ih

theorem keysNodup_dictDel {α : Type} {l : List (String × α)} (k : String)
    (h : keysNodup l) : keysNodup (dictDel l k) := by
  exact List.Nodup.sublist (List.Sublist.map Prod.fst (dictDel_sublist l k)) h

theorem mem_dictSet {α : Type} {l : List (String × α)} {k : String} {v : α}
    {p : String × α} (h : p ∈ dictSet l k v) : p ∈ l ∨ p = (k, v) := by
  induction l with
  | nil => simpa [dictSet] using h
  | cons q rest ih =>
    obtain ⟨k₁, v₁⟩ := q
    by_cases h₁ : k₁ = k
    · subst h₁
      rw [dictSet, if_pos rfl] at h
      rcases List.mem_cons.mp h with h | h
      · exact Or.inr (by simp [h])
      · exact Or.inl (List.mem_cons_of_mem _ h)
    · rw [dictSet, if_neg h₁] at h
      rcases List.mem_cons.mp h with h | h
      · exact Or.inl (by rw [h]; exact List.mem_cons_self _ _)
      · rcases ih h with h' | h'
        · exact Or.inl (List.mem_cons_of_mem _ h')
        · exact Or.inr h'

theorem mem_dictDel {α : Type} {l : List (String × α)} {k : String}
    {p : String × α} (h : p ∈ dictDel l k) : p ∈ l :=
  (dictDel_sublist l k).subset h

theorem dictDel_eq_nil {α : Type} {l : List (String × α)} {k : String}
    (h : dictDel l k = []) : l = [] ∨ ∃ v, l = [(k, v)] := by
  match l with
  | [] => exact Or.inl rfl
  | (k₁, v₁) :: rest =>
    by_cases h₁ : k₁ = k
    · subst h₁
      rw [dictDel, if_pos rfl] at h
      exact Or.inr ⟨v₁, by rw [h]⟩
    · rw [dictDel, if_neg h₁] at h
      exact absurd h (List.cons_ne_nil _ _)

/-! ## Removal-body lemmas -/

theorem StoreWF_delAndPrune {s : Store} {chat : String} {m : SymbolMap}
    (hwf : StoreWF s) (hm : dictGet s chat = some m) (symbol : String) :
    StoreWF (delAndPrune s chat m symbol) := by
  obtain ⟨h₁, h₂⟩ := hwf
  have hmnd : keysNodup m := h₂ _ (mem_of_dictGet hm)
  unfold delAndPrune
  by_cases hnil : dictDel m symbol = []
  · rw [if_pos hnil]
    exact ⟨List.Nodup.sublist (List.Sublist.map _ (dictDel_sublist s chat)) h₁,
      fun p hp => h₂ p (mem_dictDel hp)⟩
  · rw [if_neg hnil]
    refine ⟨keysNodup_dictSet _ _ h₁, fun p hp => ?_⟩
    rcases mem_dictSet hp with hp' | hp'
    · exact h₂ p hp'
    · rw [hp']
      exact keysNodup_dictDel _ hmnd

theorem NoEmptyOwner_delAndPrune {s : Store} (h : NoEmptyOwner s)
    (chat : String) (m : SymbolMap) (symbol : String) :
    NoEmptyOwner (delAndPrune s chat m symbol) := by
  unfold delAndPrune
  by_cases hnil : dictDel m symbol = []
  · rw [if_pos hnil]
    exact fun p hp => h p (mem_dictDel hp)
  · rw [if_neg hnil]
    intro p hp
    rcases mem_dictSet hp with hp' | hp'
    · exact h p hp'
    · rw [hp']
      exact hnil

theorem getAlert_delAndPrune_ne {s : Store} {chat : String} {m : SymbolMap}
    {symbol chat' symbol' : String} (hwf : StoreWF s)
    (hm : dictGet s chat = some m) (hne : (chat', symbol') ≠ (chat, symbol)) :
    getAlert (delAndPrune s chat m symbol) chat' symbol'
      = getAlert s chat' symbol' := by
  have hmnd : keysNodup m := hwf.2 _ (mem_of_dictGet hm)
  unfold delAndPrune
  by_cases hc : chat' = chat
  · subst hc
    have hss : symbol ≠ symbol' := by
      rintro rfl
      exact hne rfl
    by_cases hnil : dictDel m symbol = []
    · rw [if_pos hnil]
      simp only [getAlert, dictGet_dictDel_self s chat' hwf.1, hm]
      rcases dictDel_eq_nil hnil with rfl | ⟨v, rfl⟩
      · rfl
      · simp [dictGet, hss]
    · rw [if_neg hnil]
      simp only [getAlert, dictGet_dictSet_self, hm,
        dictGet_dictDel_ne m hss]
  · have hc' : chat ≠ chat' := fun h => hc h.symm
    by_cases hnil : dictDel m symbol = []
    · rw [if_pos hnil]
      simp only [getAlert, dictGet_dictDel_ne s hc']
    · rw [if_neg hnil]
      simp only [getAlert, dictGet_dictSet_ne s _ hc']

theorem getAlert_delAndPrune_self {s : Store} {chat : String} {m : SymbolMap}
    {symbol : String} (hwf : StoreWF s) (hm : dictGet s chat = some m) :
    getAlert (delAndPrune s chat m symbol) chat symbol = none := by
  have hmnd : keysNodup m := hwf.2 _ (mem_of_dictGet hm)
  unfold delAndPrune
  by_cases hnil : dictDel m symbol = []
  · rw [if_pos hnil]
    simp only [getAlert, dictGet_dictDel_self s chat hwf.1]
  · rw [if_neg hnil]
    simp only [getAlert, dictGet_dictSet_self,
      dictGet_dictDel_self m symbol hmnd]

/-! ## Removal-loop lemmas -/

theorem StoreWF_applyRemovals {s : Store} (hwf : StoreWF s)
    (l : List (String × String)) : StoreWF (applyRemovals s l).1 := by
  induction l generalizing s with
  | nil => exact hwf
  | cons hd rest ih =>
    obtain ⟨chat, symbol⟩ := hd
    rw [applyRemovals]
    cases hget : dictGet s chat with
    | none => exact ih hwf
    | some m =>
      by_cases hp : (dictGet m symbol).isSome
      · simp only [hp, if_pos]
        exact ih (StoreWF_delAndPrune hwf hget symbol)
      · simp only [hp, if_neg, Bool.false_eq_true, not_false_eq_true]
        exact ih hwf

theorem NoEmptyOwner_applyRemovals {s : Store} (h : NoEmptyOwner s)
    (l : List (String × String)) : NoEmptyOwner (applyRemovals s l).1 := by
  induction l generalizing s with
  | nil => exact h
  | cons hd rest ih =>
    obtain ⟨chat, symbol⟩ := hd
    rw [applyRemovals]
    cases hget : dictGet s chat with
    | none => exact ih h
    | some m =>
      by_cases hp : (dictGet m symbol).isSome
      · simp only [hp, if_pos]
        exact ih (NoEmptyOwner_delAndPrune h chat m symbol)
      · simp only [hp, if_neg, Bool.false_eq_true, not_false_eq_true]
        exact ih h

theorem getAlert_applyRemovals_of_not_mem {s : Store}
    {l : List (String × String)} {chat symbol : String} (hwf : StoreWF s)
    (h : (chat, symbol) ∉ l) :
    getAlert (applyRemovals s l).1 chat symbol = getAlert s chat symbol := by
  induction l generalizing s with
  | nil => rfl
  | cons hd rest ih =>
    obtain ⟨c, sy⟩ := hd
    have hne : (chat, symbol) ≠ (c, sy) := fun heq =>
      h (heq ▸ List.mem_cons_self _ _)
    have hrest : (chat, symbol) ∉ rest := fun hm =>
      h (List.mem_cons_of_mem _ hm)
    rw [applyRemovals]
    cases hget : dictGet s c with
    | none => exact ih hwf hrest
    | some m =>
      by_cases hp : (dictGet m sy).isSome
      · simp only [hp, if_pos]
        rw [ih (StoreWF_delAndPrune hwf hget sy) hrest,
          getAlert_delAndPrune_ne hwf hget hne]
      · simp only [hp, if_neg, Bool.false_eq_true, not_false_eq_true]
        exact ih hwf hrest

theorem getAlert_isSome_elim {s : Store} {chat symbol : String}
    (h : (getAlert s chat symbol).isSome = true) :
    ∃ m, dictGet s chat = some m ∧ (dictGet m symbol).isSome = true := by
  unfold getAlert at h
  cases hget : dictGet s chat with
  | none => rw [hget] at h; simp at h
  | some m => rw [hget] at h; exact ⟨m, rfl, h⟩

theorem applyRemovals_saves {l : List (String × String)} {s : Store}
    (hwf : StoreWF s) (hnd : l.Nodup)
    (hall : ∀ p ∈ l, (getAlert s p.1 p.2).isSome = true) :
    (applyRemovals s l).2 = l.length := by
  induction l generalizing s with
  | nil => rfl
  | cons hd rest ih =>
    obtain ⟨c, sy⟩ := hd
    obtain ⟨m, hget, hp⟩ :=
      getAlert_isSome_elim (hall (c, sy) (List.mem_cons_self _ _))
    rw [List.nodup_cons] at hnd
    rw [applyRemovals, hget]
    simp only [hp, if_pos, List.length_cons]
    rw [ih (StoreWF_delAndPrune hwf hget sy) hnd.2 ?_]
    intro p hpm
    have hpne : p ≠ (c, sy) := fun heq => hnd.1 (heq ▸ hpm)
    rw [getAlert_delAndPrune_ne hwf hget hpne]
    exact hall p (List.mem_cons_of_mem _ hpm)

/-! ## Sweep-evaluation lemmas -/

theorem sweepEval_toRemove_notifyOk {hk : Bool} {q : String → Option ℚ}
    {n : String → String → Bool} {l : List (String × String × Alert)}
    {chat symbol : String}
    (h : (chat, symbol) ∈ (sweepEval hk q n l).toRemove) :
    n chat symbol = true := by
  induction l with
  | nil => simp [sweepEval] at h
  | cons hd rest ih =>
    obtain ⟨c, sy, a⟩ := hd
    simp only [sweepEval] at h
    cases hk with
    | false =>
      simp only [Bool.false_eq_true, if_false] at h
      exact ih h
    | true =>
      simp only [if_true] at h
      cases hq : q sy with
      | none =>
        rw [hq] at h
        exact ih h
      | some p =>
        simp only [hq] at h
        by_cases hf : alertFires a.direction p a.target_price = true
        · rw [if_pos hf] at h
          by_cases hn : n c sy = true
          · rw [if_pos hn] at h
            rcases List.mem_cons.mp h with heq | h'
            · obtain ⟨rfl, rfl⟩ := Prod.mk.injEq .. ▸ heq
              exact hn
            · exact ih h'
          · rw [if_neg hn] at h
            exact ih h
        · rw [if_neg hf] at h
          exact ih h

theorem sweepEval_notifyFailed_notifyOk {hk : Bool} {q : String → Option ℚ}
    {n : String → String → Bool} {l : List (String × String × Alert)}
    {chat symbol : String}
    (h : (chat, symbol) ∈ (sweepEval hk q n l).notifyFailed) :
    n chat symbol = false := by
  induction l with
  | nil => simp [sweepEval] at h
  | cons hd rest ih =>
    obtain ⟨c, sy, a⟩ := hd
    simp only [sweepEval] at h
    cases hk with
    | false =>
      simp only [Bool.false_eq_true, if_false] at h
      exact ih h
    | true =>
      simp only [if_true] at h
      cases hq : q sy with
      | none =>
        rw [hq] at h
        exact ih h
      | some p =>
        simp only [hq] at h
        by_cases hf : alertFires a.direction p a.target_price = true
        · rw [if_pos hf] at h
          by_cases hn : n c sy = true
          · rw [if_pos hn] at h
            exact ih h
          · rw [if_neg hn] at h
            rcases List.mem_cons.mp h with heq | h'
            · obtain ⟨rfl, rfl⟩ := Prod.mk.injEq .. ▸ heq
              exact Bool.not_eq_true _ ▸ hn
            · exact ih h'
        · rw [if_neg hf] at h
          exact ih h

theorem sweepEval_mem_trigger {hk : Bool} {q : String → Option ℚ}
    {n : String → String → Bool} {l : List (String × String × Alert)}
    {chat symbol : String}
    (h : (chat, symbol) ∈ (sweepEval hk q n l).toRemove
      ∨ (chat, symbol) ∈ (sweepEval hk q n l).notified
      ∨ (chat, symbol) ∈ (sweepEval hk q n l).notifyFailed) :
    ∃ a p, (chat, symbol, a) ∈ l ∧ q symbol = some p ∧
      alertFires a.direction p a.target_price = true := by
  induction l with
  | nil => simp [sweepEval] at h
  | cons hd rest ih =>
    obtain ⟨c, sy, a⟩ := hd
    simp only [sweepEval] at h
    cases hk with
    | false =>
      simp only [Bool.false_eq_true, if_false] at h
      obtain ⟨a', p', hm, hq, hf⟩ := ih h
      exact ⟨a', p', List.mem_cons_of_mem _ hm, hq, hf⟩
    | true =>
      simp only [if_true] at h
      cases hq : q sy with
      | none =>
        simp only [hq] at h
        obtain ⟨a', p', hm, hq', hf⟩ := ih h
        exact ⟨a', p', List.mem_cons_of_mem _ hm, hq', hf⟩
      | some p =>
        simp only [hq] at h
        by_cases hf : alertFires a.direction p a.target_price = true
        · simp only [if_pos hf] at h
          by_cases hn : n c sy = true
          · simp only [if_pos hn] at h
            have hhd : (chat, symbol) = (c, sy) →
                ∃ a' p', (chat, symbol, a') ∈ (c, sy, a) :: rest ∧
                  q symbol = some p' ∧
                  alertFires a'.direction p' a'.target_price = true := by
              intro heq
              obtain ⟨rfl, rfl⟩ := Prod.mk.injEq .. ▸ heq
              exact ⟨a, p, List.mem_cons_self _ _, hq, hf⟩
            rcases h with h | h | h
            · rcases List.mem_cons.mp h with heq | h'
              · exact hhd heq
              · obtain ⟨a', p', hm, hq', hf'⟩ := ih (Or.inl h')
                exact ⟨a', p', List.mem_cons_of_mem _ hm, hq', hf'⟩
            · rcases List.mem_cons.mp h with heq | h'
              · exact hhd heq
              · obtain ⟨a', p', hm, hq', hf'⟩ := ih (Or.inr (Or.inl h'))
                exact ⟨a', p', List.mem_cons_of_mem _ hm, hq', hf'⟩
            · obtain ⟨a', p', hm, hq', hf'⟩ := ih (Or.inr (Or.inr h))
              exact ⟨a', p', List.mem_cons_of_mem _ hm, hq', hf'⟩
          · simp only [if_neg hn] at h
            rcases h with h | h | h
            · obtain ⟨a', p', hm, hq', hf'⟩ := ih (Or.inl h)
              exact ⟨a', p', List.mem_cons_of_mem _ hm, hq', hf'⟩
            · obtain ⟨a', p', hm, hq', hf'⟩ := ih (Or.inr (Or.inl h))
              exact ⟨a', p', List.mem_cons_of_mem _ hm, hq', hf'⟩
            · rcases List.mem_cons.mp h with heq | h'
              · obtain ⟨rfl, rfl⟩ := Prod.mk.injEq .. ▸ heq
                exact ⟨a, p, List.mem_cons_self _ _, hq, hf⟩
              · obtain ⟨a', p', hm, hq', hf'⟩ := ih (Or.inr (Or.inr h'))
                exact ⟨a', p', List.mem_cons_of_mem _ hm, hq', hf'⟩
        · simp only [if_neg hf] at h
          obtain ⟨a', p', hm, hq', hf'⟩ := ih h
          exact ⟨a', p', List.mem_cons_of_mem _ hm, hq', hf'⟩

theorem sweepEval_fetches (q : String → Option ℚ)
    (n : String → String → Bool) (l : List (String × String × Alert)) :
    (sweepEval true q n l).fetches = l.map (fun t => t.2.1) := by
  induction l with
  | nil => rfl
  | cons hd rest ih =>
    obtain ⟨c, sy, a⟩ := hd
    simp only [sweepEval, if_true, List.map_cons]
    cases hq : q sy with
    | none => simp [ih]
    | some p =>
      by_cases hf : alertFires a.direction p a.target_price = true
      · by_cases hn : n c sy = true <;> simp [hf, hn, ih]
      · simp [hf, ih]

theorem sweepEval_toRemove_sublist (hk : Bool) (q : String → Option ℚ)
    (n : String → String → Bool) (l : List (String × String × Alert)) :
    (sweepEval hk q n l).toRemove.Sublist (l.map (fun t => (t.1, t.2.1))) := by
  induction l with
  | nil => simp [sweepEval]
  | cons hd rest ih =>
    obtain ⟨c, sy, a⟩ := hd
    simp only [sweepEval, List.map_cons]
    cases hk with
    | false =>
      simp only [Bool.false_eq_true, if_false]
      exact List.Sublist.cons _ ih
    | true =>
      simp only [if_true]
      cases hq : q sy with
      | none => exact List.Sublist.cons _ ih
      | some p =>
        by_cases hf : alertFires a.direction p a.target_price = true
        · by_cases hn : n c sy = true
          · simp only [if_pos hf, if_pos hn]
            exact List.Sublist.cons₂ _ ih
          · simp only [if_pos hf, if_neg hn]
            exact List.Sublist.cons _ ih
        · simp only [if_neg hf]
          exact List.Sublist.cons _ ih

/-! ## Pair-listing lemmas -/

theorem mem_storePairs {s : Store} {chat symbol : String} {a : Alert} :
    (chat, symbol, a) ∈ storePairs s ↔ ∃ m, (chat, m) ∈ s ∧ (symbol, a) ∈ m := by
  induction s with
  | nil => simp [storePairs]
  | cons hd rest ih =>
    obtain ⟨c, m⟩ := hd
    simp only [storePairs, List.mem_append, List.mem_map, ih, List.mem_cons]
    constructor
    · rintro (⟨⟨sy, a'⟩, hmem, heq⟩ | ⟨m', hm', hmm⟩)
      · obtain ⟨rfl, rfl, rfl⟩ := Prod.mk.injEq .. ▸ heq
        exact ⟨m, Or.inl rfl, hmem⟩
      · exact ⟨m', Or.inr hm', hmm⟩
    · rintro ⟨m', heq | hm', hmm⟩
      · obtain ⟨rfl, rfl⟩ := Prod.mk.injEq .. ▸ heq
        exact Or.inl ⟨(symbol, a), hmm, rfl⟩
      · exact Or.inr ⟨m', hm', hmm⟩

theorem storePairs_getAlert {s : Store} (hwf : StoreWF s)
    {chat symbol : String} {a : Alert} :
    (chat, symbol, a) ∈ storePairs s ↔ getAlert s chat symbol = some a := by
  rw [mem_storePairs]
  constructor
  · rintro ⟨m, hm, hmm⟩
    have h1 : dictGet s chat = some m := dictGet_eq_some_of_mem hwf.1 hm
    unfold getAlert
    rw [h1]
    exact dictGet_eq_some_of_mem (hwf.2 _ hm) hmm
  · intro h
    unfold getAlert at h
    cases hget : dictGet s chat with
    | none => rw [hget] at h; exact absurd h (by simp)
    | some m =>
      rw [hget] at h
      exact ⟨m, mem_of_dictGet hget, mem_of_dictGet h⟩

theorem storePairs_proj_nodup {s : Store} (hwf : StoreWF s) :
    ((storePairs s).map (fun t => (t.1, t.2.1))).Nodup := by
  induction s with
  | nil => simp [storePairs]
  | cons hd rest ih =>
    obtain ⟨c, m⟩ := hd
    have hkeys := hwf.1
    rw [keysNodup, List.map_cons, List.nodup_cons] at hkeys
    have hwf' : StoreWF rest :=
      ⟨hkeys.2, fun p hp => hwf.2 p (List.mem_cons_of_mem _ hp)⟩
    have hmnd : keysNodup m := hwf.2 (c, m) (List.mem_cons_self _ _)
    simp only [storePairs, List.map_append]
    rw [List.nodup_append]
    have hb : (List.map (fun t => (t.1, t.2.1))
        (m.map fun sa => (c, sa.1, sa.2)))
        = (m.map Prod.fst).map (fun k => (c, k)) := by
      simp [List.map_map, Function.comp]
    refine ⟨?_, ih hwf', ?_⟩
    · rw [hb]
      exact List.Nodup.map (fun x y hxy => (Prod.mk.injEq .. ▸ hxy).2) hmnd
    · intro x hx hx'
      rw [hb] at hx
      obtain ⟨k, _, rfl⟩ := List.mem_map.mp hx
      obtain ⟨⟨c', sy', a'⟩, ht, heq⟩ := List.mem_map.mp hx'
      have hc'mem : c' ∈ rest.map Prod.fst := by
        obtain ⟨m', hm', _⟩ := mem_storePairs.mp ht
        exact List.mem_map_of_mem Prod.fst hm'
      have hcc : c' = c := congrArg Prod.fst heq
      exact hkeys.1 (hcc ▸ hc'mem)

/-! ## Trigger-test lemmas -/

theorem alertFires_above (current target : ℚ) :
    alertFires "above" current target = true ↔ target ≤ current := by
  simp [alertFires]

theorem alertFires_below (current target : ℚ) :
    alertFires "below" current target = true ↔ current ≤ target := by
  simp [alertFires]

theorem alertFires_of_invalid {d : String} (h₁ : d ≠ "above")
    (h₂ : d ≠ "below") (current target : ℚ) :
    alertFires d current target = false := by
  simp [alertFires, h₁, h₂]

/-! ## Persistence round-trip lemmas -/

theorem alertFromJson_alertToJson (a : Alert) :
    alertFromJson (alertToJson a) = some a := rfl

theorem symbolEntriesFromJson_toJson (m : SymbolMap) :
    symbolEntriesFromJson (m.map fun sa => (sa.1, alertToJson sa.2)) = some m := by
  induction m with
  | nil => rfl
  | cons sa rest ih =>
    obtain ⟨k, a⟩ := sa
    simp only [List.map_cons, symbolEntriesFromJson, alertFromJson_alertToJson, ih]

theorem symbolMapFromJson_toJson (m : SymbolMap) :
    symbolMapFromJson (symbolMapToJson m) = some m := by
  simp only [symbolMapToJson, symbolMapFromJson, symbolEntriesFromJson_toJson]

theorem storeEntriesFromJson_toJson (s : Store) :
    storeEntriesFromJson (s.map fun p => (p.1, symbolMapToJson p.2)) = some s := by
  induction s with
  | nil => rfl
  | cons hd rest ih =>
    obtain ⟨k, m⟩ := hd
    simp only [List.map_cons, storeEntriesFromJson, symbolMapFromJson_toJson, ih]

/-! ## Claim theorems -/

/-- C5: trigger comparisons are inclusive at the boundary — a
direction-`above` alert fires exactly when `current_price >= target_price`,
a direction-`below` alert exactly when `current_price <= target_price`, and
a price equal to the target fires in both directions. -/
theorem trigger_boundary_inclusive :
    ∀ current_price target_price : ℚ,
      (alertFires "above" current_price target_price = true ↔
        target_price ≤ current_price) ∧
      (alertFires "below" current_price target_price = true ↔
        current_price ≤ target_price) ∧
      alertFires "above" target_price target_price = true ∧
      alertFires "below" target_price target_price = true :=
  fun c t =>
    ⟨alertFires_above c t, alertFires_below c t,
      (alertFires_above t t).mpr le_rfl, (alertFires_below t t).mpr le_rfl⟩

/-- C7 (counterexample): loading can crash startup.  A file that exists
but holds invalid UTF-8 raises `UnicodeDecodeError`, and one that exists
but cannot be opened raises `OSError`; neither is `json.JSONDecodeError`,
the only exception the `except` clause names, so both propagate out of
`load_tracked_stocks` instead of producing an empty store — contradicting
"in no case does loading crash startup". -/
theorem load_uncaught_error_cex :
    load_tracked_stocks FileState.invalidUtf8
      = Except.error PyError.unicodeDecodeError ∧
    load_tracked_stocks FileState.openFails = Except.error PyError.osError ∧
    ∀ s b, load_tracked_stocks FileState.invalidUtf8 ≠ Except.ok (s, b) :=
  ⟨rfl, rfl, fun _ _ h => Except.noConfusion h⟩

/-- C7 (amended): a missing file yields the empty store with no error, and
a file whose text `json.load` rejects yields the empty store with the
error logged — but only `json.JSONDecodeError` is caught: a file that
cannot be opened (`OSError`) or whose bytes are not valid UTF-8
(`UnicodeDecodeError`) makes the load raise instead of returning, which
reaches the module-level call and crashes startup; in every other file
state the load returns a store. -/
theorem load_missing_or_corrupt_empty :
    load_tracked_stocks FileState.missing = Except.ok ([], false) ∧
    (∀ raw, load_tracked_stocks (FileState.malformed raw)
      = Except.ok ([], true)) ∧
    (∀ s, load_tracked_stocks (FileState.stored s) = Except.ok (s, false)) ∧
    (∀ fs, (∃ r, load_tracked_stocks fs = Except.ok r) ↔
      fs ≠ FileState.openFails ∧ fs ≠ FileState.invalidUtf8) := by
  refine ⟨rfl, fun _ => rfl, fun _ => rfl, fun fs => ?_⟩
  cases fs with
  | missing => exact ⟨fun _ => by simp, fun _ => ⟨([], false), rfl⟩⟩
  | openFails =>
    refine ⟨fun ⟨r, hr⟩ => absurd hr (by simp [load_tracked_stocks]), ?_⟩
    rintro ⟨h, -⟩
    exact absurd rfl h
  | invalidUtf8 =>
    refine ⟨fun ⟨r, hr⟩ => absurd hr (by simp [load_tracked_stocks]), ?_⟩
    rintro ⟨-, h⟩
    exact absurd rfl h
  | malformed raw => exact ⟨fun _ => by simp, fun _ => ⟨([], true), rfl⟩⟩
  | stored s => exact ⟨fun _ => by simp, fun _ => ⟨(s, false), rfl⟩⟩

/-- C4 (counterexample): the write is not all-or-nothing.  With the file
previously holding the serialization of the empty store, a save of a
one-alert store that fails after one character leaves the file holding
neither the old nor the new content — a partial write that corrupts the
file (the failure itself is logged, not raised). -/
theorem save_partial_write_cex :
    (save_tracked_stocks [("1", [("AAPL", ⟨100, "above"⟩)])] (some 1)).1
        ≠ serializeStore [] ∧
    (save_tracked_stocks [("1", [("AAPL", ⟨100, "above"⟩)])] (some 1)).1
        ≠ serializeStore [("1", [("AAPL", ⟨100, "above"⟩)])] ∧
    (save_tracked_stocks [("1", [("AAPL", ⟨100, "above"⟩)])] (some 1)).2
        = true := by
  refine ⟨?_, ?_, rfl⟩ <;> decide

/-- C4 (amended): `save_tracked_stocks` overwrites the file in place
(truncating `'w'` mode), so a failure partway through the write leaves a
truncated prefix of the serialization in the file; the `IOError` is caught
and logged, never raised to the caller — failure is non-fatal but the write
is not atomic. -/
theorem save_write_prefix_logged :
    ∀ (data : Store) (failAfter : Option Nat),
      (save_tracked_stocks data failAfter).2 = failAfter.isSome ∧
      ((save_tracked_stocks data failAfter).1 = serializeStore data ∨
        ∃ k, failAfter = some k ∧
          (save_tracked_stocks data failAfter).1
            = (serializeStore data).take k) := by
  intro data failAfter
  cases failAfter with
  | none => exact ⟨rfl, Or.inl rfl⟩
  | some k => exact ⟨rfl, Or.inr ⟨k, rfl, rfl⟩⟩

/-- C2 (counterexample): the quote source is not cached per symbol.  With
the same symbol tracked by two different chats, one sweep issues two quote
requests for that symbol, not one. -/
theorem quote_fetch_not_cached_cex :
    ((check_price_alerts true (fun _ => some 50) (fun _ _ => true)
        [("1", [("AAPL", ⟨100, "above"⟩)]), ("2", [("AAPL", ⟨200, "above"⟩)])]
      ).2.1.fetches.count "AAPL") = 2 := by
  decide

/-- C2 (amended): one sweep issues exactly one quote lookup per
(chat, symbol) pair visited — so a symbol tracked by several chats is
fetched once per tracking chat, not once per distinct symbol. -/
theorem sweep_fetches_once_per_pair (quote : String → Option ℚ)
    (notifyOk : String → String → Bool) (s : Store) :
    (check_price_alerts true quote notifyOk s).2.1.fetches
      = (storePairs s).map (fun t => t.2.1) :=
  sweepEval_fetches quote notifyOk (storePairs s)

/-- C1 (counterexample): a triggered alert whose notification delivery
fails is NOT removed.  Here the `above 100` alert fires at price 150, yet
with `send_message` raising, `alerts_to_remove` stays empty and the store
is unchanged after the sweep. -/
theorem notify_failure_blocks_removal_cex :
    alertFires "above" 150 100 = true ∧
    (check_price_alerts true (fun _ => some 150) (fun _ _ => false)
        [("1", [("AAPL", ⟨100, "above"⟩)])]).2.1.toRemove = [] ∧
    (check_price_alerts true (fun _ => some 150) (fun _ _ => false)
        [("1", [("AAPL", ⟨100, "above"⟩)])]).1
      = [("1", [("AAPL", ⟨100, "above"⟩)])] := by
  refine ⟨?_, ?_, ?_⟩ <;> decide

/-- C3 (counterexample): the store is not persisted once per sweep.  A
sweep that removes two triggered alerts calls `save_tracked_stocks` twice
(the save sits inside the removal loop), not once. -/
theorem sweep_saves_per_removal_cex :
    (check_price_alerts true (fun _ => some 150) (fun _ _ => true)
        [("1", [("AAPL", ⟨100, "above"⟩), ("MSFT", ⟨120, "above"⟩)])]
      ).2.1.toRemove.length = 2 ∧
    (check_price_alerts true (fun _ => some 150) (fun _ _ => true)
        [("1", [("AAPL", ⟨100, "above"⟩), ("MSFT", ⟨120, "above"⟩)])]
      ).2.2 = 2 := by
  refine ⟨?_, ?_⟩ <;> decide

/-- C9: persistence round-trips losslessly — for every well-formed store,
the JSON value written by `save_tracked_stocks` reads back as an identical
structure, and loading a file holding a stored value returns it unchanged
with no error. -/
theorem save_load_round_trip (s : Store) (_hwf : StoreWF s) :
    storeFromJson (storeToJson s) = some s ∧
    load_tracked_stocks (FileState.stored s) = Except.ok (s, false) := by
  refine ⟨?_, rfl⟩
  simp only [storeToJson, storeFromJson, storeEntriesFromJson_toJson]

/-- Witness for C9, at the spec's own example store
`{"42": {"GOOG": {target_price: 180, direction: "above"}}}`. -/
theorem save_load_round_trip_witness :
    StoreWF [("42", [("GOOG", ⟨180, "above"⟩)])] ∧
    (storeFromJson (storeToJson [("42", [("GOOG", ⟨180, "above"⟩)])])
        = some [("42", [("GOOG", ⟨180, "above"⟩)])] ∧
      load_tracked_stocks (FileState.stored [("42", [("GOOG", ⟨180, "above"⟩)])])
        = Except.ok ([("42", [("GOOG", ⟨180, "above"⟩)])], false)) :=
  ⟨by decide, save_load_round_trip [("42", [("GOOG", ⟨180, "above"⟩)])] (by decide)⟩

/-- C1 (amended): a triggered alert is marked for removal and deleted only
when its notification is delivered; every pair in `alerts_to_remove` had a
successful `send_message`, and a pair whose `send_message` raised (the
exception is caught and logged by the per-pair handler) keeps its store
entry unchanged through the sweep — it will fire again on a later sweep. -/
theorem triggered_alert_removed_only_on_delivery (s : Store) (hasKey : Bool)
    (quote : String → Option ℚ) (notifyOk : String → String → Bool)
    (hwf : StoreWF s) :
    (∀ chat symbol,
      (chat, symbol) ∈
          (check_price_alerts hasKey quote notifyOk s).2.1.toRemove →
        notifyOk chat symbol = true) ∧
    (∀ chat symbol,
      (chat, symbol) ∈
          (check_price_alerts hasKey quote notifyOk s).2.1.notifyFailed →
        getAlert (check_price_alerts hasKey quote notifyOk s).1 chat symbol
          = getAlert s chat symbol) := by
  constructor
  · intro chat symbol h
    exact sweepEval_toRemove_notifyOk h
  · intro chat symbol h
    have hfalse := sweepEval_notifyFailed_notifyOk h
    have hnotmem : (chat, symbol) ∉
        (sweepEval hasKey quote notifyOk (storePairs s)).toRemove := by
      intro hmem
      have htrue := sweepEval_toRemove_notifyOk hmem
      rw [hfalse] at htrue
      exact Bool.false_ne_true htrue
    exact getAlert_applyRemovals_of_not_mem hwf hnotmem

/-- Witness for C1 (amended): the one-alert store whose notification
delivery fails keeps its entry after the sweep. -/
theorem triggered_alert_removed_only_on_delivery_witness :
    StoreWF [("1", [("AAPL", ⟨100, "above"⟩)])] ∧
    ("1", "AAPL") ∈ (check_price_alerts true (fun _ => some 150)
        (fun _ _ => false) [("1", [("AAPL", ⟨100, "above"⟩)])]).2.1.notifyFailed ∧
    getAlert (check_price_alerts true (fun _ => some 150) (fun _ _ => false)
        [("1", [("AAPL", ⟨100, "above"⟩)])]).1 "1" "AAPL"
      = getAlert [("1", [("AAPL", ⟨100, "above"⟩)])] "1" "AAPL" :=
  ⟨by decide, by decide,
    (triggered_alert_removed_only_on_delivery
        [("1", [("AAPL", ⟨100, "above"⟩)])] true (fun _ => some 150)
        (fun _ _ => false) (by decide)).2 "1" "AAPL" (by decide)⟩

/-- C3 (amended): one sweep calls `save_tracked_stocks` once per alert it
actually removes — the save count equals the length of the removal list —
rather than a single batched save per sweep (and no save at all when
nothing triggered). -/
theorem sweep_save_count_eq_removed (s : Store) (quote : String → Option ℚ)
    (notifyOk : String → String → Bool) (hwf : StoreWF s) :
    (check_price_alerts true quote notifyOk s).2.2
      = (check_price_alerts true quote notifyOk s).2.1.toRemove.length := by
  have hsub := sweepEval_toRemove_sublist true quote notifyOk (storePairs s)
  have hnd : (sweepEval true quote notifyOk (storePairs s)).toRemove.Nodup :=
    List.Nodup.sublist hsub (storePairs_proj_nodup hwf)
  apply applyRemovals_saves hwf hnd
  intro p hp
  obtain ⟨a', p', hm, _, _⟩ := sweepEval_mem_trigger (Or.inl hp)
  rw [(storePairs_getAlert hwf).mp hm]
  rfl

/-- Witness for C3 (amended): a sweep removing two alerts performs exactly
`toRemove.length` saves. -/
theorem sweep_save_count_eq_removed_witness :
    StoreWF [("1", [("AAPL", ⟨100, "above"⟩), ("MSFT", ⟨120, "above"⟩)])] ∧
    (check_price_alerts true (fun _ => some 150) (fun _ _ => true)
        [("1", [("AAPL", ⟨100, "above"⟩), ("MSFT", ⟨120, "above"⟩)])]).2.2
      = (check_price_alerts true (fun _ => some 150) (fun _ _ => true)
          [("1", [("AAPL", ⟨100, "above"⟩), ("MSFT", ⟨120, "above"⟩)])]
        ).2.1.toRemove.length :=
  ⟨by decide,
    sweep_save_count_eq_removed
      [("1", [("AAPL", ⟨100, "above"⟩), ("MSFT", ⟨120, "above"⟩)])]
      (fun _ => some 150) (fun _ _ => true) (by decide)⟩

/-- C8: no dangling empty chat entries — starting from a store with no
empty chat entry, an `untrack` removal prunes an emptied chat entry, and so
does the sweep's trigger-removal loop: neither mutation leaves a chat
mapped to an empty inner dict. -/
theorem no_dangling_empty_owner (s : Store) (h : NoEmptyOwner s) :
    (∀ chat symbolArg s',
      untrack s chat symbolArg = UntrackResult.removed s' → NoEmptyOwner s') ∧
    (∀ (hasKey : Bool) (quote : String → Option ℚ)
        (notifyOk : String → String → Bool),
      NoEmptyOwner (check_price_alerts hasKey quote notifyOk s).1) := by
  constructor
  · intro chat symbolArg s' hu
    unfold untrack at hu
    cases hg : dictGet s chat with
    | none =>
      simp only [hg] at hu
      exact absurd hu (by simp)
    | some m =>
      simp only [hg] at hu
      by_cases hs : (dictGet m (pyUpper symbolArg)).isSome = true
      · rw [if_pos hs] at hu
        have hdp : delAndPrune s chat m (pyUpper symbolArg) = s' := by
          injection hu
        exact hdp ▸ NoEmptyOwner_delAndPrune h chat m (pyUpper symbolArg)
      · rw [if_neg hs] at hu
        exact absurd hu (by simp)
  · intro hasKey quote notifyOk
    exact NoEmptyOwner_applyRemovals h
      (sweepEval hasKey quote notifyOk (storePairs s)).toRemove

/-- Witness for C8: untracking the one alert of chat "1" leaves a store
with no empty chat entry, and a sweep that removes the only alert of chat
"1" also leaves none. -/
theorem no_dangling_empty_owner_witness :
    NoEmptyOwner [("1", [("AAPL", (⟨100, "above"⟩ : Alert))])] ∧
    untrack [("1", [("AAPL", ⟨100, "above"⟩)])] "1" "aapl"
      = UntrackResult.removed [] ∧
    NoEmptyOwner [] ∧
    NoEmptyOwner (check_price_alerts true (fun _ => some 150)
        (fun _ _ => true) [("1", [("AAPL", ⟨100, "above"⟩)])]).1 :=
  ⟨by decide, by decide,
    (no_dangling_empty_owner [("1", [("AAPL", ⟨100, "above"⟩)])]
        (by decide)).1 "1" "aapl" [] (by decide),
    (no_dangling_empty_owner [("1", [("AAPL", ⟨100, "above"⟩)])]
        (by decide)).2 true (fun _ => some 150) (fun _ _ => true)⟩

/-- C10: an alert whose `direction` string is neither `'above'` nor
`'below'` (reachable via the unvalidated persisted file) is silently
skipped by a sweep even when a price is obtained: the chat is not notified
(successfully or not), the pair is never marked for removal, and the alert
survives the sweep unchanged — in the code both trigger branches are
`False` and the pair simply falls through, raising nothing. -/
theorem invalid_direction_alert_retained (s : Store)
    (quote : String → Option ℚ) (notifyOk : String → String → Bool)
    (chat symbol : String) (a : Alert) (p : ℚ) (hwf : StoreWF s)
    (ha : getAlert s chat symbol = some a)
    (hd₁ : a.direction ≠ "above") (hd₂ : a.direction ≠ "below")
    (_hq : quote symbol = some p) :
    getAlert (check_price_alerts true quote notifyOk s).1 chat symbol
        = some a ∧
    (chat, symbol) ∉ (check_price_alerts true quote notifyOk s).2.1.notified ∧
    (chat, symbol) ∉
      (check_price_alerts true quote notifyOk s).2.1.notifyFailed ∧
    (chat, symbol) ∉ (check_price_alerts true quote notifyOk s).2.1.toRemove := by
  have hnot : ((chat, symbol) ∈
        (sweepEval true quote notifyOk (storePairs s)).toRemove
      ∨ (chat, symbol) ∈
        (sweepEval true quote notifyOk (storePairs s)).notified
      ∨ (chat, symbol) ∈
        (sweepEval true quote notifyOk (storePairs s)).notifyFailed) → False := by
    intro h
    obtain ⟨a', p', hm, hq', hf'⟩ := sweepEval_mem_trigger h
    have haa : a' = a := by
      have hget := (storePairs_getAlert hwf).mp hm
      rw [ha] at hget
      exact (Option.some.injEq .. ▸ hget).symm
    rw [haa, alertFires_of_invalid hd₁ hd₂] at hf'
    exact Bool.false_ne_true hf'
  refine ⟨?_, fun h => hnot (Or.inr (Or.inl h)),
    fun h => hnot (Or.inr (Or.inr h)), fun h => hnot (Or.inl h)⟩
  rw [show (check_price_alerts true quote notifyOk s).1
      = (applyRemovals s
          (sweepEval true quote notifyOk (storePairs s)).toRemove).1 from rfl,
    getAlert_applyRemovals_of_not_mem hwf (fun h => hnot (Or.inl h))]
  exact ha

/-- Witness for C10: a `direction = "sideways"` alert survives a sweep that
sees price 150 for its symbol. -/
theorem invalid_direction_alert_retained_witness :
    StoreWF [("1", [("AAPL", (⟨100, "sideways"⟩ : Alert))])] ∧
    getAlert [("1", [("AAPL", ⟨100, "sideways"⟩)])] "1" "AAPL"
      = some ⟨100, "sideways"⟩ ∧
    getAlert (check_price_alerts true (fun _ => some 150) (fun _ _ => true)
        [("1", [("AAPL", ⟨100, "sideways"⟩)])]).1 "1" "AAPL"
      = some ⟨100, "sideways"⟩ :=
  ⟨by decide, by decide,
    (invalid_direction_alert_retained [("1", [("AAPL", ⟨100, "sideways"⟩)])]
        (fun _ => some 150) (fun _ _ => true) "1" "AAPL" ⟨100, "sideways"⟩ 150
        (by decide) (by decide) (by decide) (by decide) rfl).1⟩

theorem track_eq_some {s s' : Store} {chat symbolArg : String} {p : ℚ}
    {d : String} (h : track s chat symbolArg p d = some s') :
    s' = dictSet s chat
      (dictSet ((dictGet s chat).getD []) (pyUpper symbolArg)
        ⟨p, pyLower d⟩) := by
  unfold track at h
  by_cases hp : p ≤ 0
  · rw [if_pos hp] at h
    exact absurd h (by simp)
  · rw [if_neg hp] at h
    by_cases hd : pyLower d ≠ "above" ∧ pyLower d ≠ "below"
    · rw [if_pos hd] at h
      exact absurd h (by simp)
    · rw [if_neg hd] at h
      exact (Option.some.injEq .. ▸ h).symm

/-- C6: alert upsert is last-writer-wins with exactly one alert per
(chat, symbol) — after two successful `/track` calls for the same chat and
symbol, the chat's inner dict holds exactly one binding for that (uppercased)
symbol, carrying the second call's target price and (lowercased) direction. -/
theorem track_upsert_last_writer_wins (s s₁ s₂ : Store)
    (chat symbolArg : String) (p₁ p₂ : ℚ) (d₁ d₂ : String) (hwf : StoreWF s)
    (h₁ : track s chat symbolArg p₁ d₁ = some s₁)
    (h₂ : track s₁ chat symbolArg p₂ d₂ = some s₂) :
    ∃ m, dictGet s₂ chat = some m ∧
      (m.map Prod.fst).count (pyUpper symbolArg) = 1 ∧
      dictGet m (pyUpper symbolArg) = some ⟨p₂, pyLower d₂⟩ := by
  have e₁ := track_eq_some h₁
  have e₂ := track_eq_some h₂
  have hm₁ : dictGet s₁ chat
      = some (dictSet ((dictGet s chat).getD []) (pyUpper symbolArg)
          ⟨p₁, pyLower d₁⟩) := by
    rw [e₁]
    exact dictGet_dictSet_self ..
  rw [hm₁] at e₂
  simp only [Option.getD_some] at e₂
  have hnd₀ : keysNodup ((dictGet s chat).getD []) := by
    cases hg : dictGet s chat with
    | none => simp [keysNodup]
    | some m => exact hwf.2 _ (mem_of_dictGet hg)
  refine ⟨dictSet (dictSet ((dictGet s chat).getD []) (pyUpper symbolArg)
      ⟨p₁, pyLower d₁⟩) (pyUpper symbolArg) ⟨p₂, pyLower d₂⟩, ?_, ?_, ?_⟩
  · rw [e₂]
    exact dictGet_dictSet_self ..
  · have hnd : keysNodup (dictSet (dictSet ((dictGet s chat).getD [])
        (pyUpper symbolArg) ⟨p₁, pyLower d₁⟩) (pyUpper symbolArg)
        ⟨p₂, pyLower d₂⟩) :=
      keysNodup_dictSet _ _ (keysNodup_dictSet _ _ hnd₀)
    have hmem : pyUpper symbolArg ∈ (dictSet (dictSet
        ((dictGet s chat).getD []) (pyUpper symbolArg) ⟨p₁, pyLower d₁⟩)
        (pyUpper symbolArg) ⟨p₂, pyLower d₂⟩).map Prod.fst :=
      (mem_keys_dictSet ..).mpr (Or.inr rfl)
    exact List.count_eq_one_of_mem hnd hmem
  · exact dictGet_dictSet_self ..

/-- Witness for C6: `Track(7, "aapl", 100, Above)` then
`Track(7, "aapl", 200, below)` leaves exactly the second alert. -/
theorem track_upsert_last_writer_wins_witness :
    StoreWF [] ∧
    track [] "7" "aapl" 100 "Above"
      = some [("7", [("AAPL", ⟨100, "above"⟩)])] ∧
    track [("7", [("AAPL", ⟨100, "above"⟩)])] "7" "aapl" 200 "below"
      = some [("7", [("AAPL", ⟨200, "below"⟩)])] ∧
    ∃ m, dictGet [("7", [("AAPL", (⟨200, "below"⟩ : Alert))])] "7" = some m ∧
      (m.map Prod.fst).count (pyUpper "aapl") = 1 ∧
      dictGet m (pyUpper "aapl") = some ⟨200, pyLower "below"⟩ :=
  ⟨by decide, by decide, by decide,
    track_upsert_last_writer_wins [] [("7", [("AAPL", ⟨100, "above"⟩)])]
      [("7", [("AAPL", ⟨200, "below"⟩)])] "7" "aapl" 100 200 "Above" "below"
      (by decide) (by decide) (by decide)⟩
